import Mathlib

/-!
Shallow embedding of the nonlinear time-stepping core of
`src/3D_convergence/src/FisherKolmogorov3D.cpp` (deal.II Fisher-Kolmogorov
solver), together with theorems settling the frozen claims about it.

Modelling conventions:
* Machine doubles are modelled by exact rationals (`ℚ`); the claims under
  scrutiny are about the algebraic structure of the code, stated under exact
  arithmetic.
* The single-process view is modelled: the cells of the mesh are exactly the
  locally-owned cells (the C++ loop skips non-owned cells), and ghost refresh
  (`solution = solution_owned`) is plain assignment of the owned vector.
* The convergence test `residual_norm > newton_tolerance` on the Euclidean
  norm is modelled by the equivalent comparison of squares
  `residualNormSq > newton_tolerance ^ 2`; the two are equivalent because the
  configuration pattern `Patterns::Double(0)` forces `newton_tolerance ≥ 0`.
* The CG linear solve is an external collaborator (out of scope per the spec);
  it is modelled as an oracle `ls : State → ℕ → ℚ` producing the increment
  that the solver writes into `delta_owned`.
-/

namespace FisherKolmogorov3D

/-- Spatial vectors in ℝ³ (deal.II `Tensor<1,3>`), with rational entries. -/
abbrev Vec3 := Fin 3 → ℚ

/-- Rank-2 tensors (deal.II `Tensor<2,3>`), e.g. the diffusion tensor. -/
abbrev Mat3 := Fin 3 → Fin 3 → ℚ

/-- Dot product of two spatial vectors (deal.II `Tensor<1> * Tensor<1>`). -/
def dot3 (a b : Vec3) : ℚ := ∑ k, a k * b k

/-- Tensor-vector contraction (deal.II `Tensor<2> * Tensor<1>`). -/
def matVec (M : Mat3) (v : Vec3) : Vec3 := fun k => ∑ l, M k l * v l

/-- Per-cell finite-element data produced by `FEValues` after
`fe_values.reinit(cell)`: shape values `φ_i(x_q)`, shape gradients
`∇φ_i(x_q)`, quadrature point locations, quadrature weights `JxW(q)`,
and the cell-to-global DoF map `dof_indices`. `n` is `dofs_per_cell`,
`nQ` is the number of quadrature points. -/
structure Cell (n nQ : ℕ) where
  shapeValue : Fin n → Fin nQ → ℚ
  shapeGrad : Fin n → Fin nQ → Vec3
  quadPoint : Fin nQ → Vec3
  JxW : Fin nQ → ℚ
  dofIndex : Fin n → ℕ

/-- The locally-owned part of the distributed triangulation plus the global
DoF count (the size of the distributed vectors). -/
structure Mesh (n nQ : ℕ) where
  cells : List (Cell n nQ)
  nDofs : ℕ

/-- Run parameters of the solver: reaction rate α, timestep Δt, final time T,
Newton tolerance and iteration cap, the diffusion-tensor field `D(x)` and the
time-dependent forcing `f(t, x)`. -/
structure Params where
  alpha : ℚ
  deltat : ℚ
  T : ℚ
  newton_tolerance : ℚ
  max_newton_iterations : ℕ
  d : Vec3 → Mat3
  forcing : ℚ → Vec3 → ℚ

/-- The mutable members of the `FisherKolmogorov3D` object that the core
reads and writes: current time, owned/ghosted solution vectors, previous-step
solution, Newton increment, global Jacobian and (sign-changed) residual, plus
the log of emitted outputs (time step number and the solution written). -/
structure State where
  time : ℚ
  solution_owned : ℕ → ℚ
  solution : ℕ → ℚ
  solution_old : ℕ → ℚ
  delta_owned : ℕ → ℚ
  jacobian : ℕ → ℕ → ℚ
  residual : ℕ → ℚ
  outputs : List (ℕ × (ℕ → ℚ))

/-- Restriction of a global coefficient vector to a cell: coefficient of
local shape function `i` is the global coefficient at `dof_indices[i]`. -/
def localCoeffs (c : Cell n nQ) (u : ℕ → ℚ) : Fin n → ℚ :=
  fun i => u (c.dofIndex i)

/-- `solution_loc[q]`: value at quadrature point `q` of the finite-element
field with local coefficients `uL` (deal.II `get_function_values`). -/
def solLoc (c : Cell n nQ) (uL : Fin n → ℚ) (q : Fin nQ) : ℚ :=
  ∑ i, uL i * c.shapeValue i q

/-- `solution_gradient_loc[q]`: gradient at quadrature point `q` of the
finite-element field with local coefficients `uL`
(deal.II `get_function_gradients`). -/
def solGradLoc (c : Cell n nQ) (uL : Fin n → ℚ) (q : Fin nQ) : Vec3 :=
  fun k => ∑ i, uL i * c.shapeGrad i q k

/-- The element Jacobian block accumulated by `assemble_system` on one cell:
mass term `φ_i φ_j / Δt · w_q`, diffusion term `(D ∇φ_i) · ∇φ_j · w_q`, and
reaction linearization `− α φ_i (1 − 2 u(q)) φ_j · w_q`, summed over
quadrature points; `uL` are the local coefficients of the current Newton
iterate (`solution`). -/
def cell_matrix (p : Params) (c : Cell n nQ) (uL : Fin n → ℚ)
    (i j : Fin n) : ℚ :=
  ∑ q, (c.shapeValue i q * c.shapeValue j q / p.deltat * c.JxW q
    + dot3 (matVec (p.d (c.quadPoint q)) (c.shapeGrad i q))
        (c.shapeGrad j q) * c.JxW q
    - p.alpha * c.shapeValue i q * (1 - 2 * solLoc c uL q)
        * c.shapeValue j q * c.JxW q)

/-- The element residual (with changed sign) accumulated by
`assemble_system` on one cell: time-derivative term, diffusion term, reaction
term and forcing term, summed over quadrature points. `uL` are the local
coefficients of the current iterate, `uoL` those of `solution_old`; the
forcing is evaluated at time `t` (the time set by `forcing_term.set_time`). -/
def cell_residual (p : Params) (t : ℚ) (c : Cell n nQ)
    (uL uoL : Fin n → ℚ) (i : Fin n) : ℚ :=
  ∑ q, (-((solLoc c uL q - solLoc c uoL q) / p.deltat
        * c.shapeValue i q * c.JxW q)
    - dot3 (matVec (p.d (c.quadPoint q)) (c.shapeGrad i q))
        (solGradLoc c uL q) * c.JxW q
    + p.alpha * solLoc c uL q * (1 - solLoc c uL q)
        * c.shapeValue i q * c.JxW q
    + p.forcing t (c.quadPoint q) * c.shapeValue i q * c.JxW q)

/-- The global Jacobian after `assemble_system`: zeroed, then each cell's
block is scatter-added at the cell's global DoF indices. -/
def assembleJacobian (p : Params) (m : Mesh n nQ) (u : ℕ → ℚ) :
    ℕ → ℕ → ℚ :=
  fun a b =>
    (m.cells.map (fun c => ∑ i, ∑ j,
      if c.dofIndex i = a ∧ c.dofIndex j = b then
        cell_matrix p c (localCoeffs c u) i j
      else 0)).sum

/-- The global (sign-changed) residual after `assemble_system`: zeroed, then
each cell's element residual is scatter-added at its global DoF indices. -/
def assembleResidual (p : Params) (m : Mesh n nQ) (t : ℚ)
    (u uold : ℕ → ℚ) : ℕ → ℚ :=
  fun a =>
    (m.cells.map (fun c => ∑ i,
      if c.dofIndex i = a then
        cell_residual p t c (localCoeffs c u) (localCoeffs c uold) i
      else 0)).sum

/-- `assemble_system`: rebuilds the global Jacobian and residual from the
current `solution`, `solution_old` and `time`; no other member is touched. -/
def assemble_system (p : Params) (m : Mesh n nQ) (s : State) : State :=
  { s with
    jacobian := assembleJacobian p m s.solution
    residual := assembleResidual p m s.time s.solution s.solution_old }

/-- Square of the Euclidean norm of the global residual vector
(`residual_vector.l2_norm()` squared). -/
def residualNormSq (m : Mesh n nQ) (s : State) : ℚ :=
  ∑ a ∈ Finset.range m.nDofs, s.residual a ^ 2

/-- The Newton update performed when the residual is above tolerance:
the solver writes `δ` into `delta_owned`, then `solution_owned += δ` and the
ghosted view is refreshed (`solution = solution_owned`). -/
def newtonUpdate (δ : ℕ → ℚ) (s : State) : State :=
  { s with
    delta_owned := δ
    solution_owned := fun a => s.solution_owned a + δ a
    solution := fun a => s.solution_owned a + δ a }

/-- The Newton loop of `solve_newton`, with `fuel` the number of remaining
iterations (`max_newton_iterations - n_iter`).  Each pass assembles, tests
the just-assembled residual against the tolerance, and only when above
tolerance solves (oracle `ls`) and updates. The initial entry test
`residual_norm = tol + 1 > tol` of the C++ code is always true, so the loop
body runs exactly when fuel remains and the previous residual was above
tolerance. -/
def solveNewtonGo (p : Params) (m : Mesh n nQ) (ls : State → ℕ → ℚ) :
    ℕ → State → State
  | 0, s => s
  | fuel + 1, s =>
    if residualNormSq m (assemble_system p m s) ≤ p.newton_tolerance ^ 2 then
      assemble_system p m s
    else
      solveNewtonGo p m ls fuel
        (newtonUpdate (ls (assemble_system p m s)) (assemble_system p m s))

/-- `solve_newton`: run the Newton loop for at most
`max_newton_iterations` iterations. -/
def solve_newton (p : Params) (m : Mesh n nQ) (ls : State → ℕ → ℚ)
    (s : State) : State :=
  solveNewtonGo p m ls p.max_newton_iterations s

/-- One non-converged Newton iteration: assemble, solve, update.  Used to
describe the behaviour of `solve_newton` when the residual never drops below
tolerance. -/
def newton_iterate (p : Params) (m : Mesh n nQ) (ls : State → ℕ → ℚ)
    (s : State) : State :=
  newtonUpdate (ls (assemble_system p m s)) (assemble_system p m s)

/-- `output(time_step)`: writes the current `solution` field; modelled as
appending the pair to the output log. No solver member is modified. -/
def output (s : State) (time_step : ℕ) : State :=
  { s with outputs := s.outputs ++ [(time_step, s.solution)] }

/-- The state at the start of a timestep body: `time += deltat` and the
snapshot `solution_old = solution` taken so it is available for assembly. -/
def stepStart (p : Params) (s : State) : State :=
  { s with time := s.time + p.deltat, solution_old := s.solution }

/-- The body of the time loop in `solve()` for a step numbered `time_step`:
`time += deltat`, snapshot `solution_old = solution`, run Newton, then
`output(time_step)`. -/
def timeStepBody (p : Params) (m : Mesh n nQ) (ls : State → ℕ → ℚ)
    (s : State) (time_step : ℕ) : State :=
  output (solve_newton p m ls (stepStart p s)) time_step

/-- The time loop of `solve()`: `while (time < T - 0.5 * deltat)` run the
step body with the incremented step counter.  Returns the final state and the
final step counter.  Termination uses `0 < deltat` (enforced by the parameter
pattern `Patterns::Double(0)` together with a nonzero step being required to
advance time). -/
def solveLoop (p : Params) (m : Mesh n nQ) (ls : State → ℕ → ℚ)
    (hdt : 0 < p.deltat) (s : State) (time_step : ℕ) : State × ℕ :=
  if s.time < p.T - p.deltat / 2 then
    solveLoop p m ls hdt (timeStepBody p m ls s (time_step + 1))
      (time_step + 1)
  else (s, time_step)
termination_by (⌈(p.T - p.deltat / 2 - s.time) / p.deltat⌉).toNat
decreasing_by
  have hgo : ∀ (fuel : ℕ) (st : State),
      (solveNewtonGo p m ls fuel st).time = st.time := by
    intro fuel
    induction fuel with
    | zero => intro st; rfl
    | succ f ih =>
      intro st
      rw [solveNewtonGo]
      split
      · rfl
      · rw [ih]; rfl
  have htime : (timeStepBody p m ls s (time_step + 1)).time
      = s.time + p.deltat := by
    simp only [timeStepBody, stepStart, output, solve_newton, hgo]
  rw [htime]
  have h1 : (p.T - p.deltat / 2 - (s.time + p.deltat)) / p.deltat
      = (p.T - p.deltat / 2 - s.time) / p.deltat - 1 := by
    field_simp
    ring
  rw [h1, Int.ceil_sub_one]
  have h2 : 0 < (p.T - p.deltat / 2 - s.time) / p.deltat := by
    apply div_pos _ hdt
    linarith
  have h3 : (1 : ℤ) ≤ ⌈(p.T - p.deltat / 2 - s.time) / p.deltat⌉ :=
    Int.ceil_pos.mpr h2
  omega

/-- The initialization performed by `solve()` before the time loop:
`time = 0`, the interpolated initial condition `u0` written into
`solution_owned`, and the ghosted view refreshed from it. -/
def initState (u0 : ℕ → ℚ) (s0 : State) : State :=
  { s0 with time := 0, solution_owned := u0, solution := u0 }

/-- `solve()`: set `time = 0`, interpolate the initial condition `u0` into
`solution_owned`, refresh the ghosted view, emit the step-0 output, then run
the time loop starting from step counter 0. -/
def solve (p : Params) (m : Mesh n nQ) (ls : State → ℕ → ℚ)
    (hdt : 0 < p.deltat) (u0 : ℕ → ℚ) (s0 : State) : State × ℕ :=
  solveLoop p m ls hdt (output (initState u0 s0) 0) 0

/-! Concrete instances used by witness theorems. -/

/-- A trivial linear-solve oracle returning the zero increment. -/
def lsZero : State → ℕ → ℚ := fun _ _ => 0

/-- A one-DoF, one-quadrature-point cell whose single shape function is the
constant 1 (so it satisfies the Lagrange partition of unity). -/
def cellW : Cell 1 1 where
  shapeValue := fun _ _ => 1
  shapeGrad := fun _ _ _ => 0
  quadPoint := fun _ _ => 0
  JxW := fun _ => 1
  dofIndex := fun _ => 0

/-- A two-DoF, one-quadrature-point cell with distinct shape data. -/
def cell2W : Cell 2 1 where
  shapeValue := fun i _ => if i = 0 then 1/3 else 2/3
  shapeGrad := fun i _ k => if i = 0 then (if k = 0 then 1 else 0)
    else (if k = 0 then -1 else 0)
  quadPoint := fun _ _ => 0
  JxW := fun _ => 1
  dofIndex := fun i => i.val

/-- A one-cell mesh with one global DoF. -/
def meshW : Mesh 1 1 where
  cells := [cellW]
  nDofs := 1

/-- An empty local partition (valid per the spec). -/
def meshEmpty : Mesh 1 1 where
  cells := []
  nDofs := 0

/-- The all-zero state. -/
def stateW : State where
  time := 0
  solution_owned := fun _ => 0
  solution := fun _ => 0
  solution_old := fun _ => 0
  delta_owned := fun _ => 0
  jacobian := fun _ _ => 0
  residual := fun _ => 0
  outputs := []

/-- The state whose solution vectors are identically 1. -/
def stateOne : State :=
  { stateW with
    solution_owned := fun _ => 1
    solution := fun _ => 1
    solution_old := fun _ => 1 }

/-- Baseline parameters: α = 1, Δt = 1, T = 1, ε_N = 0, N_max = 2,
D = identity, f = 0. -/
def paramsW : Params where
  alpha := 1
  deltat := 1
  T := 1
  newton_tolerance := 0
  max_newton_iterations := 2
  d := fun _ k l => if k = l then 1 else 0
  forcing := fun _ _ => 0

/-- Parameters with the constant forcing f = 1 (a residual source that the
zero oracle can never remove) and Newton cap 1. -/
def paramsF : Params :=
  { paramsW with forcing := fun _ _ => 1, max_newton_iterations := 1 }

/-- Parameters with final time T = 0 (shorter than half a timestep). -/
def paramsT0 : Params := { paramsW with T := 0 }

/-- Parameters with a strictly positive Newton tolerance. -/
def paramsOne : Params := { paramsW with newton_tolerance := 1 }

/-- A forcing field that agrees with the zero forcing of `paramsW` at time 1
but differs at every other time. -/
def forcingAlt : ℚ → Vec3 → ℚ := fun t _ => 1 - t

/-- The zero initial-condition interpolant. -/
def u0W : ℕ → ℚ := fun _ => 0

/-! Shared helper lemmas. -/

/-- The timestep of `paramsOne` is positive. -/
theorem hdtOne : 0 < paramsOne.deltat := by norm_num [paramsOne, paramsW]

/-- The timestep of `paramsW` is positive. -/
theorem hdtW : 0 < paramsW.deltat := by norm_num [paramsW]

/-- The timestep of `paramsT0` is positive. -/
theorem hdtT0 : 0 < paramsT0.deltat := by norm_num [paramsT0, paramsW]

/-- The timestep of `paramsF` is positive. -/
theorem hdtF : 0 < paramsF.deltat := by norm_num [paramsF, paramsW]

/-- The Newton loop never writes `time`, `solution_old` or the output log:
only `solution_owned`, `solution`, `delta_owned`, the Jacobian and the
residual are mutated by its body. -/
theorem solveNewtonGo_frame (p : Params) (m : Mesh n nQ)
    (ls : State → ℕ → ℚ) :
    ∀ (fuel : ℕ) (s : State),
      (solveNewtonGo p m ls fuel s).time = s.time ∧
      (solveNewtonGo p m ls fuel s).solution_old = s.solution_old ∧
      (solveNewtonGo p m ls fuel s).outputs = s.outputs := by
  intro fuel
  induction fuel with
  | zero => intro s; exact ⟨rfl, rfl, rfl⟩
  | succ f ih =>
    intro s
    rw [solveNewtonGo]
    split
    · exact ⟨rfl, rfl, rfl⟩
    · obtain ⟨h1, h2, h3⟩ := ih
        (newtonUpdate (ls (assemble_system p m s)) (assemble_system p m s))
      exact ⟨by rw [h1]; rfl, by rw [h2]; rfl, by rw [h3]; rfl⟩

/-- The step body advances the time member by exactly `deltat`. -/
theorem timeStepBody_time (p : Params) (m : Mesh n nQ)
    (ls : State → ℕ → ℚ) (s : State) (ts : ℕ) :
    (timeStepBody p m ls s ts).time = s.time + p.deltat := by
  simp only [timeStepBody, output, solve_newton]
  rw [(solveNewtonGo_frame p m ls p.max_newton_iterations _).1]
  rfl

/-- Evaluating the local field after perturbing the `j`-th local coefficient
by `ε` adds `ε φ_j(q)` to the value. -/
theorem solLoc_perturb (c : Cell n nQ) (uL : Fin n → ℚ) (j : Fin n)
    (ε : ℚ) (q : Fin nQ) :
    solLoc c (fun i => uL i + ε * (if i = j then 1 else 0)) q
      = solLoc c uL q + ε * c.shapeValue j q := by
  simp only [solLoc, add_mul, Finset.sum_add_distrib]
  congr 1
  rw [Finset.sum_eq_single j]
  · simp
  · intro i _ hij
    simp [hij]
  · simp

/-- Evaluating the local gradient after perturbing the `j`-th local
coefficient by `ε` adds `ε ∇φ_j(q)` to the gradient. -/
theorem solGradLoc_perturb (c : Cell n nQ) (uL : Fin n → ℚ) (j : Fin n)
    (ε : ℚ) (q : Fin nQ) :
    solGradLoc c (fun i => uL i + ε * (if i = j then 1 else 0)) q
      = fun k => solGradLoc c uL q k + ε * c.shapeGrad j q k := by
  funext k
  simp only [solGradLoc, add_mul, Finset.sum_add_distrib]
  congr 1
  rw [Finset.sum_eq_single j]
  · simp
  · intro i _ hij
    simp [hij]
  · simp

/-- Linearity of the dot product in an `ε`-perturbed second argument. -/
theorem dot3_add_smul (v a b : Vec3) (ε : ℚ) :
    dot3 v (fun k => a k + ε * b k) = dot3 v a + ε * dot3 v b := by
  simp only [dot3, Finset.mul_sum]
  rw [← Finset.sum_add_distrib]
  refine Finset.sum_congr rfl fun k _ => by ring

/-! Claim theorems. -/

/-- C1: the element Jacobian block assembled by `assemble_system` is the
derivative, with respect to the current-iterate local coefficients, of the
negation of the element residual assembled in the same pass: perturbing the
`j`-th current-iterate coefficient by `ε` changes the `i`-th element residual
by `− ε · cell_matrix(i,j)` up to the explicit quadratic remainder
`− ε² α Σ_q φ_j(q)² φ_i(q) w_q` coming from the quadratic reaction term.  In
particular the linear coefficient carries the reaction contribution
`− α φ_i (1 − 2 u(q)) φ_j w_q` with `u` the current Newton iterate `uL`, not
the previous-step iterate `uoL` (which does not enter `cell_matrix` at
all). -/
theorem cell_matrix_is_derivative_of_neg_cell_residual (p : Params)
    (c : Cell n nQ) (t : ℚ) (uL uoL : Fin n → ℚ) (i j : Fin n) (ε : ℚ) :
    cell_residual p t c (fun i' => uL i' + ε * (if i' = j then 1 else 0))
        uoL i
      = cell_residual p t c uL uoL i - ε * cell_matrix p c uL i j
        - ε ^ 2 * (p.alpha
            * ∑ q, c.shapeValue j q ^ 2 * c.shapeValue i q * c.JxW q) := by
  simp only [cell_residual, cell_matrix, solLoc_perturb, solGradLoc_perturb,
    dot3_add_smul]
  rw [Finset.mul_sum, Finset.mul_sum, Finset.mul_sum,
    ← Finset.sum_sub_distrib, ← Finset.sum_sub_distrib]
  refine Finset.sum_congr rfl fun q _ => by ring

/-- C2: in `solve_newton`, the convergence test is applied to the norm of
the just-assembled residual before any linear solve.  If that norm is within
tolerance, the loop returns the assembled state for any linear-solve oracle
(no solve happens), with `solution_owned`, `solution` and `delta_owned`
untouched.  Only when the norm exceeds the tolerance does the iteration
perform a solve and the update `u ← u + δ` followed by the ghost refresh
`solution = solution_owned`. -/
theorem newton_tests_residual_before_solving (p : Params) (m : Mesh n nQ)
    (ls : State → ℕ → ℚ) (fuel : ℕ) (s : State) :
    (residualNormSq m (assemble_system p m s) ≤ p.newton_tolerance ^ 2 →
      (∀ ls' : State → ℕ → ℚ,
        solveNewtonGo p m ls' (fuel + 1) s = assemble_system p m s) ∧
      (assemble_system p m s).solution_owned = s.solution_owned ∧
      (assemble_system p m s).solution = s.solution ∧
      (assemble_system p m s).delta_owned = s.delta_owned) ∧
    (p.newton_tolerance ^ 2 < residualNormSq m (assemble_system p m s) →
      solveNewtonGo p m ls (fuel + 1) s
        = solveNewtonGo p m ls fuel
            (newtonUpdate (ls (assemble_system p m s))
              (assemble_system p m s)) ∧
      (newtonUpdate (ls (assemble_system p m s))
          (assemble_system p m s)).delta_owned
        = ls (assemble_system p m s) ∧
      (newtonUpdate (ls (assemble_system p m s))
          (assemble_system p m s)).solution_owned
        = (fun a => (assemble_system p m s).solution_owned a
            + ls (assemble_system p m s) a) ∧
      (newtonUpdate (ls (assemble_system p m s))
          (assemble_system p m s)).solution
        = (newtonUpdate (ls (assemble_system p m s))
            (assemble_system p m s)).solution_owned) := by
  constructor
  · intro h
    refine ⟨fun ls' => ?_, rfl, rfl, rfl⟩
    rw [solveNewtonGo, if_pos h]
  · intro h
    refine ⟨?_, rfl, rfl, rfl⟩
    rw [solveNewtonGo, if_neg (not_le.mpr h)]

/-- C2 witness: on an empty local partition with tolerance 0 the assembled
residual norm is 0, the convergence test fires and no solve happens. -/
theorem newton_tests_residual_before_solving_witness :
    (∀ ls' : State → ℕ → ℚ,
      solveNewtonGo paramsW meshEmpty ls' (0 + 1) stateW
        = assemble_system paramsW meshEmpty stateW) ∧
    (assemble_system paramsW meshEmpty stateW).solution_owned
      = stateW.solution_owned ∧
    (assemble_system paramsW meshEmpty stateW).solution = stateW.solution ∧
    (assemble_system paramsW meshEmpty stateW).delta_owned
      = stateW.delta_owned :=
  (newton_tests_residual_before_solving paramsW meshEmpty lsZero 0 stateW).1
    (by norm_num [residualNormSq, meshEmpty, paramsW])

/-- A cell with Lagrange partition of unity evaluates a constant-coefficient
field to that constant, and its gradient to zero; with zero forcing and a
constant `x` with `x (1 − x) = 0`, every element-residual entry vanishes. -/
theorem cell_residual_const_zero (p : Params) (t : ℚ) (c : Cell n nQ)
    (x : ℚ) (hx : x * (1 - x) = 0)
    (hfz : ∀ (t' : ℚ) (y : Vec3), p.forcing t' y = 0)
    (h1 : ∀ q, ∑ i, c.shapeValue i q = 1)
    (h0 : ∀ (q : Fin nQ) (k : Fin 3), ∑ i, c.shapeGrad i q k = 0)
    (i : Fin n) :
    cell_residual p t c (fun _ => x) (fun _ => x) i = 0 := by
  unfold cell_residual
  apply Finset.sum_eq_zero
  intro q _
  have hu : solLoc c (fun _ => x) q = x := by
    rw [solLoc, ← Finset.mul_sum, h1, mul_one]
  have hg : solGradLoc c (fun _ => x) q = fun _ => 0 := by
    funext k
    rw [solGradLoc, ← Finset.mul_sum, h0, mul_zero]
  have hd : dot3 (matVec (p.d (c.quadPoint q)) (c.shapeGrad i q))
      (solGradLoc c (fun _ => x) q) = 0 := by
    rw [hg]
    simp [dot3]
  rw [hu, hd, hfz]
  linear_combination (p.alpha * c.shapeValue i q * c.JxW q) * hx

/-- On a mesh whose cells all satisfy the partition of unity, with zero
forcing and constant solution vectors at an equilibrium value, the assembled
global residual vanishes entry-wise. -/
theorem assembleResidual_const_zero (p : Params) (m : Mesh n nQ) (t : ℚ)
    (x : ℚ) (hx : x * (1 - x) = 0)
    (hfz : ∀ (t' : ℚ) (y : Vec3), p.forcing t' y = 0)
    (h1 : ∀ c ∈ m.cells, ∀ q, ∑ i, c.shapeValue i q = 1)
    (h0 : ∀ c ∈ m.cells, ∀ (q : Fin nQ) (k : Fin 3),
      ∑ i, c.shapeGrad i q k = 0)
    (a : ℕ) :
    assembleResidual p m t (fun _ => x) (fun _ => x) a = 0 := by
  unfold assembleResidual
  apply List.sum_eq_zero
  intro y hy
  rw [List.mem_map] at hy
  obtain ⟨c, hc, rfl⟩ := hy
  apply Finset.sum_eq_zero
  intro i _
  split
  · exact cell_residual_const_zero p t c x hx hfz (h1 c hc) (h0 c hc) i
  · rfl

/-- If the just-assembled residual vanishes entry-wise, the Newton loop
leaves both solution vectors untouched (converged branch, no update). -/
theorem solveNewtonGo_zero_residual (p : Params) (m : Mesh n nQ)
    (ls : State → ℕ → ℚ) (s : State)
    (hres : ∀ a, (assemble_system p m s).residual a = 0) :
    ∀ fuel : ℕ,
      (solveNewtonGo p m ls fuel s).solution = s.solution ∧
      (solveNewtonGo p m ls fuel s).solution_owned = s.solution_owned := by
  intro fuel
  have hnorm : residualNormSq m (assemble_system p m s) = 0 := by
    unfold residualNormSq
    apply Finset.sum_eq_zero
    intro a _
    rw [hres a]
    ring
  cases fuel with
  | zero => exact ⟨rfl, rfl⟩
  | succ f =>
    rw [solveNewtonGo, if_pos (by rw [hnorm]; positivity)]
    exact ⟨rfl, rfl⟩

/-- The time loop preserves constant equilibrium solution vectors. -/
theorem solveLoop_const_invariant (p : Params) (m : Mesh n nQ)
    (ls : State → ℕ → ℚ) (hdt : 0 < p.deltat) (x : ℚ)
    (hx : x * (1 - x) = 0)
    (hfz : ∀ (t' : ℚ) (y : Vec3), p.forcing t' y = 0)
    (h1 : ∀ c ∈ m.cells, ∀ q, ∑ i, c.shapeValue i q = 1)
    (h0 : ∀ c ∈ m.cells, ∀ (q : Fin nQ) (k : Fin 3),
      ∑ i, c.shapeGrad i q k = 0) :
    ∀ (s : State) (ts : ℕ),
      s.solution = (fun _ => x) → s.solution_owned = (fun _ => x) →
      (solveLoop p m ls hdt s ts).1.solution = (fun _ => x) ∧
      (solveLoop p m ls hdt s ts).1.solution_owned = (fun _ => x) := by
  intro s ts
  induction s, ts using solveLoop.induct p m ls hdt with
  | case1 s ts hcond ih =>
    intro hs ho
    rw [solveLoop, if_pos hcond]
    have hres : ∀ a,
        (assemble_system p m (stepStart p s)).residual a = 0 := by
      intro a
      show assembleResidual p m _ s.solution s.solution a = 0
      rw [hs]
      exact assembleResidual_const_zero p m _ x hx hfz h1 h0 a
    have hgo := solveNewtonGo_zero_residual p m ls (stepStart p s) hres
      p.max_newton_iterations
    exact ih (hgo.1.trans hs) (hgo.2.trans ho)
  | case2 s ts hcond =>
    intro hs ho
    rw [solveLoop, if_neg hcond]
    exact ⟨hs, ho⟩

/-- C3: with zero forcing and both solution vectors representing the
constant field `x ∈ {0, 1}` (constant coefficients, Lagrange cells with
partition of unity), every per-cell element-residual entry vanishes and
`assemble_system` produces an identically zero residual; consequently, for a
constant initial state with `ε_N > 0`, every timestep's Newton loop performs
no update and the solution stays at that constant for all time. -/
theorem constant_equilibria_preserved (p : Params) (m : Mesh n nQ)
    (ls : State → ℕ → ℚ) (hdt : 0 < p.deltat) (x : ℚ)
    (hx01 : x = 0 ∨ x = 1) (htol : 0 < p.newton_tolerance)
    (hfz : ∀ (t' : ℚ) (y : Vec3), p.forcing t' y = 0)
    (h1 : ∀ c ∈ m.cells, ∀ q, ∑ i, c.shapeValue i q = 1)
    (h0 : ∀ c ∈ m.cells, ∀ (q : Fin nQ) (k : Fin 3),
      ∑ i, c.shapeGrad i q k = 0)
    (s : State) (ts : ℕ)
    (hs : s.solution = fun _ => x) (hold : s.solution_old = fun _ => x)
    (ho : s.solution_owned = fun _ => x) :
    (∀ c ∈ m.cells, ∀ (t : ℚ) (i : Fin n),
      cell_residual p t c (fun _ => x) (fun _ => x) i = 0) ∧
    (∀ a, (assemble_system p m s).residual a = 0) ∧
    (solveLoop p m ls hdt s ts).1.solution = (fun _ => x) ∧
    (solveLoop p m ls hdt s ts).1.solution_owned = (fun _ => x) := by
  have hx : x * (1 - x) = 0 := by
    rcases hx01 with h | h <;> rw [h] <;> ring
  refine ⟨fun c hc t i =>
      cell_residual_const_zero p t c x hx hfz (h1 c hc) (h0 c hc) i,
    fun a => ?_, solveLoop_const_invariant p m ls hdt x hx hfz h1 h0 s ts hs ho⟩
  show assembleResidual p m s.time s.solution s.solution_old a = 0
  rw [hs, hold]
  exact assembleResidual_const_zero p m s.time x hx hfz h1 h0 a

/-- C3 witness: on the one-cell partition-of-unity mesh with zero forcing
and the identically-1 state, the loop keeps the solution at 1. -/
theorem constant_equilibria_preserved_witness :
    (∀ c ∈ meshW.cells, ∀ (t : ℚ) (i : Fin 1),
      cell_residual paramsOne t c (fun _ => 1) (fun _ => 1) i = 0) ∧
    (∀ a, (assemble_system paramsOne meshW stateOne).residual a = 0) ∧
    (solveLoop paramsOne meshW lsZero hdtOne stateOne 0).1.solution
      = (fun _ => (1 : ℚ)) ∧
    (solveLoop paramsOne meshW lsZero hdtOne stateOne 0).1.solution_owned
      = (fun _ => (1 : ℚ)) :=
  constant_equilibria_preserved paramsOne meshW lsZero hdtOne 1 (Or.inr rfl)
    (by norm_num [paramsOne, paramsW])
    (fun _ _ => rfl)
    (by
      intro c hc q
      simp only [meshW, List.mem_singleton] at hc
      subst hc
      simp [cellW])
    (by
      intro c hc q k
      simp only [meshW, List.mem_singleton] at hc
      subst hc
      simp [cellW])
    stateOne 0 rfl rfl rfl

/-- The time loop only returns once the guard `t < T − Δt/2` fails. -/
theorem solveLoop_exit (p : Params) (m : Mesh n nQ) (ls : State → ℕ → ℚ)
    (hdt : 0 < p.deltat) :
    ∀ (s : State) (ts : ℕ),
      p.T - p.deltat / 2 ≤ (solveLoop p m ls hdt s ts).1.time := by
  intro s ts
  induction s, ts using solveLoop.induct p m ls hdt with
  | case1 s ts hcond ih =>
    rw [solveLoop, if_pos hcond]
    exact ih
  | case2 s ts hcond =>
    rw [solveLoop, if_neg hcond]
    exact not_lt.mp hcond

/-- The time loop advances time by exactly `Δt` per counted step. -/
theorem solveLoop_time_eq_steps (p : Params) (m : Mesh n nQ)
    (ls : State → ℕ → ℚ) (hdt : 0 < p.deltat) :
    ∀ (s : State) (ts : ℕ), ∃ k : ℕ,
      (solveLoop p m ls hdt s ts).2 = ts + k ∧
      (solveLoop p m ls hdt s ts).1.time = s.time + (k : ℚ) * p.deltat := by
  intro s ts
  induction s, ts using solveLoop.induct p m ls hdt with
  | case1 s ts hcond ih =>
    rw [solveLoop, if_pos hcond]
    obtain ⟨k, hk1, hk2⟩ := ih
    refine ⟨k + 1, by omega, ?_⟩
    rw [hk2, timeStepBody_time]
    push_cast
    ring
  | case2 s ts hcond =>
    rw [solveLoop, if_neg hcond]
    exact ⟨0, by omega, by push_cast; ring⟩

/-- Once entered, the time loop returns a final time below `T + Δt/2`;
otherwise it returns its argument unchanged. -/
theorem solveLoop_upper (p : Params) (m : Mesh n nQ) (ls : State → ℕ → ℚ)
    (hdt : 0 < p.deltat) :
    ∀ (s : State) (ts : ℕ),
      (solveLoop p m ls hdt s ts).1.time < p.T + p.deltat / 2 ∨
      solveLoop p m ls hdt s ts = (s, ts) := by
  intro s ts
  induction s, ts using solveLoop.induct p m ls hdt with
  | case1 s ts hcond ih =>
    rw [solveLoop, if_pos hcond]
    left
    rcases ih with h | h
    · exact h
    · rw [h]
      show (timeStepBody p m ls s (ts + 1)).time < _
      rw [timeStepBody_time]
      linarith
  | case2 s ts hcond =>
    rw [solveLoop, if_neg hcond]
    right
    rfl

/-- C4: under exact arithmetic, for `T > 0` and `Δt > 0` the time loop of
`solve()` starts at `t = 0`, executes the step body exactly while
`t < T − Δt/2` (advancing `t` by `Δt` per counted step), and terminates with
the final completed-step time satisfying `T − Δt/2 ≤ t < T + Δt/2`; in
particular with `Δt = T` the driver runs exactly one timestep. -/
theorem time_loop_runs_to_final_time (p : Params) (m : Mesh n nQ)
    (ls : State → ℕ → ℚ) (hdt : 0 < p.deltat) (hT : 0 < p.T)
    (u0 : ℕ → ℚ) (s0 : State) :
    (∀ (s : State) (ts : ℕ),
      (s.time < p.T - p.deltat / 2 →
        solveLoop p m ls hdt s ts
          = solveLoop p m ls hdt (timeStepBody p m ls s (ts + 1)) (ts + 1)) ∧
      (¬ s.time < p.T - p.deltat / 2 →
        solveLoop p m ls hdt s ts = (s, ts))) ∧
    (output (initState u0 s0) 0).time = 0 ∧
    p.T - p.deltat / 2 ≤ (solve p m ls hdt u0 s0).1.time ∧
    (solve p m ls hdt u0 s0).1.time < p.T + p.deltat / 2 ∧
    (solve p m ls hdt u0 s0).1.time
      = ((solve p m ls hdt u0 s0).2 : ℚ) * p.deltat ∧
    (p.deltat = p.T → (solve p m ls hdt u0 s0).2 = 1) := by
  refine ⟨fun s ts => ⟨fun h => ?_, fun h => ?_⟩, rfl, ?_, ?_, ?_, ?_⟩
  · rw [solveLoop, if_pos h]
  · rw [solveLoop, if_neg h]
  · exact solveLoop_exit p m ls hdt _ 0
  · rcases solveLoop_upper p m ls hdt (output (initState u0 s0) 0) 0
      with h | h
    · exact h
    · show (solveLoop p m ls hdt _ 0).1.time < _
      rw [h]
      show (0 : ℚ) < p.T + p.deltat / 2
      linarith
  · obtain ⟨k, hk1, hk2⟩ := solveLoop_time_eq_steps p m ls hdt
      (output (initState u0 s0) 0) 0
    unfold solve
    rw [hk2, hk1]
    have hz : (output (initState u0 s0) 0).time = 0 := rfl
    rw [hz]
    push_cast
    ring
  · intro hdT
    show (solveLoop p m ls hdt _ 0).2 = 1
    rw [solveLoop, if_pos (by
      show (0 : ℚ) < p.T - p.deltat / 2
      rw [hdT]
      linarith)]
    rw [solveLoop, if_neg (by
      rw [timeStepBody_time]
      show ¬ ((0 : ℚ) + p.deltat < p.T - p.deltat / 2)
      rw [hdT]
      linarith)]

/-- C4 witness: with `T = Δt = 1` the driver runs exactly one timestep and
the final time lies in the half-step window around `T`. -/
theorem time_loop_runs_to_final_time_witness :
    paramsW.T - paramsW.deltat / 2
      ≤ (solve paramsW meshW lsZero hdtW u0W stateW).1.time ∧
    (solve paramsW meshW lsZero hdtW u0W stateW).1.time
      < paramsW.T + paramsW.deltat / 2 ∧
    (solve paramsW meshW lsZero hdtW u0W stateW).2 = 1 := by
  have h := time_loop_runs_to_final_time paramsW meshW lsZero hdtW
    (by norm_num [paramsW]) u0W stateW
  exact ⟨h.2.2.1, h.2.2.2.1, h.2.2.2.2.2 rfl⟩

/-- Exchanging the two gradient arguments of the diffusion bilinear form is
allowed when the tensor is symmetric. -/
theorem dot3_matVec_symm (M : Mat3) (hM : ∀ k l, M k l = M l k)
    (a b : Vec3) : dot3 (matVec M a) b = dot3 (matVec M b) a := by
  simp only [dot3, matVec, Finset.sum_mul]
  rw [Finset.sum_comm]
  refine Finset.sum_congr rfl fun k _ => Finset.sum_congr rfl fun l _ => ?_
  rw [hM l k]
  ring

/-- C5: if the diffusion tensor is symmetric at every quadrature point of a
cell, the element Jacobian block assembled on that cell is exactly
symmetric: the mass, diffusion and reaction-linearization contributions are
each symmetric in `i, j`. -/
theorem cell_matrix_symmetric (p : Params) (c : Cell n nQ)
    (uL : Fin n → ℚ)
    (hsym : ∀ (q : Fin nQ) (k l : Fin 3),
      p.d (c.quadPoint q) k l = p.d (c.quadPoint q) l k)
    (i j : Fin n) :
    cell_matrix p c uL i j = cell_matrix p c uL j i := by
  unfold cell_matrix
  refine Finset.sum_congr rfl fun q _ => ?_
  rw [dot3_matVec_symm (p.d (c.quadPoint q)) (hsym q)]
  ring

/-- C5 witness: on a concrete two-DoF cell with the identity diffusion
tensor the off-diagonal element Jacobian entries coincide. -/
theorem cell_matrix_symmetric_witness :
    cell_matrix paramsW cell2W (fun _ => 0) 0 1
      = cell_matrix paramsW cell2W (fun _ => 0) 1 0 :=
  cell_matrix_symmetric paramsW cell2W (fun _ => 0)
    (fun q k l => by
      show (if k = l then (1 : ℚ) else 0) = (if l = k then 1 else 0)
      rcases eq_or_ne k l with h | h
      · rw [h]
      · rw [if_neg h, if_neg (Ne.symm h)]) 0 1

/-- C7: `assemble_system` zeroes and rebuilds the global Jacobian and
residual from `solution`, `solution_old` and `time` only, so calling it
twice in succession yields literally the same state, and any state agreeing
on those three members assembles the identical Jacobian and residual. -/
theorem assemble_system_idempotent (p : Params) (m : Mesh n nQ)
    (s : State) :
    assemble_system p m (assemble_system p m s) = assemble_system p m s ∧
    (∀ s' : State, s'.solution = s.solution →
      s'.solution_old = s.solution_old → s'.time = s.time →
      (assemble_system p m s').jacobian = (assemble_system p m s).jacobian ∧
      (assemble_system p m s').residual
        = (assemble_system p m s).residual) := by
  refine ⟨rfl, fun s' h1 h2 h3 => ⟨?_, ?_⟩⟩
  · show assembleJacobian p m s'.solution = assembleJacobian p m s.solution
    rw [h1]
  · show assembleResidual p m s'.time s'.solution s'.solution_old
      = assembleResidual p m s.time s.solution s.solution_old
    rw [h1, h2, h3]

/-- C7 witness: re-assembly on the concrete one-cell mesh reproduces the
identical Jacobian and residual. -/
theorem assemble_system_idempotent_witness :
    assemble_system paramsW meshW (assemble_system paramsW meshW stateW)
      = assemble_system paramsW meshW stateW ∧
    (assemble_system paramsW meshW stateW).jacobian
      = (assemble_system paramsW meshW stateW).jacobian ∧
    (assemble_system paramsW meshW stateW).residual
      = (assemble_system paramsW meshW stateW).residual :=
  ⟨(assemble_system_idempotent paramsW meshW stateW).1,
    (assemble_system_idempotent paramsW meshW stateW).2 stateW rfl rfl rfl⟩

/-- C8: throughout one timestep's invocation of `solve_newton` (including
every inner `assemble_system` and update), `solution_old` is never written:
it stays equal to the snapshot of `solution` taken at the start of the
timestep; `time` and the output log are not written either, and
`assemble_system` touches no solution vector. -/
theorem solution_old_immutable_during_timestep (p : Params)
    (m : Mesh n nQ) (ls : State → ℕ → ℚ) (s : State) :
    (∀ fuel : ℕ,
      (solveNewtonGo p m ls fuel s).solution_old = s.solution_old ∧
      (solveNewtonGo p m ls fuel s).time = s.time ∧
      (solveNewtonGo p m ls fuel s).outputs = s.outputs) ∧
    (solve_newton p m ls s).solution_old = s.solution_old ∧
    (assemble_system p m s).solution_old = s.solution_old ∧
    (assemble_system p m s).solution = s.solution ∧
    (assemble_system p m s).solution_owned = s.solution_owned ∧
    (∀ δ : ℕ → ℚ, (newtonUpdate δ s).solution_old = s.solution_old) ∧
    (stepStart p s).solution_old = s.solution ∧
    (solve_newton p m ls (stepStart p s)).solution_old = s.solution := by
  refine ⟨fun fuel => ⟨(solveNewtonGo_frame p m ls fuel s).2.1,
      (solveNewtonGo_frame p m ls fuel s).1,
      (solveNewtonGo_frame p m ls fuel s).2.2⟩,
    (solveNewtonGo_frame p m ls p.max_newton_iterations s).2.1,
    rfl, rfl, rfl, fun δ => rfl, rfl, ?_⟩
  exact (solveNewtonGo_frame p m ls p.max_newton_iterations
    (stepStart p s)).2.1

/-- If the assembled residual stays above tolerance at every iterate, the
Newton loop runs through all of its fuel, performing one
assemble-solve-update per unit of fuel. -/
theorem solveNewtonGo_all_above_tol (p : Params) (m : Mesh n nQ)
    (ls : State → ℕ → ℚ) :
    ∀ (fuel : ℕ) (s : State),
      (∀ k < fuel, p.newton_tolerance ^ 2 < residualNormSq m
        (assemble_system p m ((newton_iterate p m ls)^[k] s))) →
      solveNewtonGo p m ls fuel s = (newton_iterate p m ls)^[fuel] s := by
  intro fuel
  induction fuel with
  | zero => intro s _; rfl
  | succ f ih =>
    intro s hdiv
    have h0 := hdiv 0 (Nat.succ_pos f)
    rw [Function.iterate_zero_apply] at h0
    rw [solveNewtonGo, if_neg (not_le.mpr h0), Function.iterate_succ_apply]
    exact ih (newton_iterate p m ls s) (fun k hk => by
      have hh := hdiv (k + 1) (Nat.succ_lt_succ hk)
      rwa [Function.iterate_succ_apply] at hh)

/-- C6: if every Newton iterate of a timestep keeps the residual norm above
the tolerance, `solve_newton` completes all `N_max` iterations and returns
normally (the last iterate), signalling nothing; the time-stepping driver
then emits the output for that step, recording the last Newton iterate as
the solution, and proceeds to the next timestep from it. -/
theorem newton_nonconvergence_not_flagged (p : Params) (m : Mesh n nQ)
    (ls : State → ℕ → ℚ) (hdt : 0 < p.deltat) (s : State)
    (hdiv : ∀ k < p.max_newton_iterations,
      p.newton_tolerance ^ 2 < residualNormSq m
        (assemble_system p m ((newton_iterate p m ls)^[k] s))) :
    solve_newton p m ls s
      = (newton_iterate p m ls)^[p.max_newton_iterations] s ∧
    (∀ (s' : State) (ts : ℕ), s'.time < p.T - p.deltat / 2 →
      solveLoop p m ls hdt s' ts
        = solveLoop p m ls hdt
            (output (solve_newton p m ls (stepStart p s')) (ts + 1))
            (ts + 1)) ∧
    (∀ (st : State) (ts : ℕ),
      (output st ts).outputs = st.outputs ++ [(ts, st.solution)]) := by
  refine ⟨solveNewtonGo_all_above_tol p m ls p.max_newton_iterations s hdiv,
    fun s' ts h => ?_, fun st ts => rfl⟩
  rw [solveLoop, if_pos h]
  rfl

/-- C6 witness: constant forcing 1 keeps the residual at norm 1 while the
zero linear-solve oracle never changes the iterate, so the Newton loop runs
its full cap of 2 iterations and returns the last iterate. -/
theorem newton_nonconvergence_not_flagged_witness :
    solve_newton paramsF meshW lsZero stateW
      = (newton_iterate paramsF meshW lsZero)^[1] stateW :=
  (newton_nonconvergence_not_flagged paramsF meshW lsZero hdtF stateW
    (by
      intro k hk
      have hk1 : k < 1 := hk
      have hk0 : k = 0 := by omega
      subst hk0
      show (0 : ℚ) ^ 2 < residualNormSq meshW
        (assemble_system paramsF meshW stateW)
      norm_num [residualNormSq, assemble_system, assembleResidual,
        cell_residual, solLoc, solGradLoc, localCoeffs, dot3, matVec,
        meshW, cellW, paramsF, paramsW, stateW,
        Fin.sum_univ_one, Finset.sum_range_succ])).1

/-- Changing the forcing field to one that agrees with the original at time
`t` leaves every element residual assembled at time `t` unchanged. -/
theorem cell_residual_forcing_congr (p : Params) (f' : ℚ → Vec3 → ℚ)
    (t : ℚ) (c : Cell n nQ) (uL uoL : Fin n → ℚ) (i : Fin n)
    (hf : ∀ y : Vec3, f' t y = p.forcing t y) :
    cell_residual { p with forcing := f' } t c uL uoL i
      = cell_residual p t c uL uoL i := by
  unfold cell_residual
  refine Finset.sum_congr rfl fun q _ => ?_
  dsimp only
  rw [hf]

/-- Changing the forcing field to one that agrees with the original at the
state's current time leaves the whole assembled system unchanged. -/
theorem assemble_system_forcing_congr (p : Params) (f' : ℚ → Vec3 → ℚ)
    (m : Mesh n nQ) (s : State)
    (hf : ∀ y : Vec3, f' s.time y = p.forcing s.time y) :
    assemble_system { p with forcing := f' } m s
      = assemble_system p m s := by
  unfold assemble_system
  have hj : assembleJacobian { p with forcing := f' } m s.solution
      = assembleJacobian p m s.solution := rfl
  have hr : assembleResidual { p with forcing := f' } m s.time s.solution
      s.solution_old = assembleResidual p m s.time s.solution
      s.solution_old := by
    funext a
    unfold assembleResidual
    congr 1
    apply List.map_congr_left
    intro c _
    refine Finset.sum_congr rfl fun i _ => ?_
    split
    · exact cell_residual_forcing_congr p f' s.time c _ _ i hf
    · rfl
  rw [hj, hr]

/-- Within a Newton solve all iterates share the entry time, so a forcing
field agreeing with the original at that time produces the identical Newton
loop result. -/
theorem solveNewtonGo_forcing_congr (p : Params) (f' : ℚ → Vec3 → ℚ)
    (m : Mesh n nQ) (ls : State → ℕ → ℚ) (t0 : ℚ)
    (hf : ∀ y : Vec3, f' t0 y = p.forcing t0 y) :
    ∀ (fuel : ℕ) (s : State), s.time = t0 →
      solveNewtonGo { p with forcing := f' } m ls fuel s
        = solveNewtonGo p m ls fuel s := by
  intro fuel
  induction fuel with
  | zero => intro s _; rfl
  | succ f ih =>
    intro s hst
    have ha : assemble_system { p with forcing := f' } m s
        = assemble_system p m s :=
      assemble_system_forcing_congr p f' m s (by rw [hst]; exact hf)
    rw [solveNewtonGo, solveNewtonGo, ha]
    have htol : ({ p with forcing := f' } : Params).newton_tolerance
        = p.newton_tolerance := rfl
    rw [htol]
    split
    · rfl
    · exact ih (newtonUpdate (ls (assemble_system p m s))
        (assemble_system p m s)) hst

/-- C9: the forcing term is evaluated at the end-of-step time.  The step
body hands `solve_newton` a state whose time was already advanced to
`tⁿ⁺¹ = t + Δt`, every Newton iterate keeps that time, and replacing the
forcing field by any field agreeing with it at `tⁿ⁺¹` (for all spatial
points) produces the identical timestep — every forcing contribution in
every Newton iteration of the step uses `f(·, tⁿ⁺¹)` only. -/
theorem forcing_evaluated_at_end_of_step (p : Params)
    (f' : ℚ → Vec3 → ℚ) (m : Mesh n nQ) (ls : State → ℕ → ℚ)
    (s : State) (ts : ℕ)
    (hf : ∀ y : Vec3, f' (s.time + p.deltat) y
      = p.forcing (s.time + p.deltat) y) :
    timeStepBody { p with forcing := f' } m ls s ts
      = timeStepBody p m ls s ts ∧
    timeStepBody p m ls s ts
      = output (solve_newton p m ls (stepStart p s)) ts ∧
    (stepStart p s).time = s.time + p.deltat ∧
    (∀ (fuel : ℕ) (s' : State),
      (solveNewtonGo p m ls fuel s').time = s'.time) := by
  refine ⟨?_, rfl, rfl, fun fuel s' =>
    (solveNewtonGo_frame p m ls fuel s').1⟩
  show output (solve_newton { p with forcing := f' } m ls
      (stepStart { p with forcing := f' } s)) ts
    = output (solve_newton p m ls (stepStart p s)) ts
  have hstep : stepStart { p with forcing := f' } s = stepStart p s := rfl
  rw [hstep]
  unfold solve_newton
  have hmax : ({ p with forcing := f' } : Params).max_newton_iterations
      = p.max_newton_iterations := rfl
  rw [hmax, solveNewtonGo_forcing_congr p f' m ls (s.time + p.deltat) hf
    p.max_newton_iterations (stepStart p s) rfl]

/-- C9 witness: the forcing `t ↦ 1 − t` agrees with the zero forcing of
`paramsW` at the end-of-step time 1 of the zero state, so the timestep body
is unchanged by swapping them. -/
theorem forcing_evaluated_at_end_of_step_witness :
    timeStepBody { paramsW with forcing := forcingAlt } meshW lsZero
        stateW 0
      = timeStepBody paramsW meshW lsZero stateW 0 :=
  (forcing_evaluated_at_end_of_step paramsW forcingAlt meshW lsZero stateW 0
    (fun y => by norm_num [forcingAlt, paramsW, stateW])).1

/-- C10: if `T < Δt/2` (e.g. `T = 0`), `solve()` executes zero timesteps:
it still sets `time = 0`, writes the interpolated initial condition into
`solution_owned`, refreshes `solution`, and emits the step-0 output, and it
returns that state unchanged with step counter 0 — no Newton iteration and
no further output happen. -/
theorem no_timestep_when_T_below_half_step (p : Params) (m : Mesh n nQ)
    (ls : State → ℕ → ℚ) (hdt : 0 < p.deltat) (hT : p.T < p.deltat / 2)
    (u0 : ℕ → ℚ) (s0 : State) :
    solve p m ls hdt u0 s0 = (output (initState u0 s0) 0, 0) ∧
    (output (initState u0 s0) 0).time = 0 ∧
    (output (initState u0 s0) 0).solution_owned = u0 ∧
    (output (initState u0 s0) 0).solution = u0 ∧
    (output (initState u0 s0) 0).outputs = s0.outputs ++ [(0, u0)] := by
  refine ⟨?_, rfl, rfl, rfl, rfl⟩
  unfold solve
  rw [solveLoop, if_neg (by
    show ¬ ((0 : ℚ) < p.T - p.deltat / 2)
    intro hcon
    linarith)]

/-- C10 witness: with `T = 0` and `Δt = 1` the driver performs no timestep
and returns the initialized, step-0-output state. -/
theorem no_timestep_when_T_below_half_step_witness :
    solve paramsT0 meshW lsZero hdtT0 u0W stateW
      = (output (initState u0W stateW) 0, 0) ∧
    (output (initState u0W stateW) 0).solution = u0W :=
  ⟨(no_timestep_when_T_below_half_step paramsT0 meshW lsZero hdtT0
      (by norm_num [paramsT0, paramsW]) u0W stateW).1,
    (no_timestep_when_T_below_half_step paramsT0 meshW lsZero hdtT0
      (by norm_num [paramsT0, paramsW]) u0W stateW).2.2.2.1⟩

end FisherKolmogorov3D
